import Mathlib

/-!
Shallow embedding of `drivers/Linux/EthernetServer.cpp` (class `EthernetServer`).

The server state consists of
  * `clients`     : the `std::vector<int> clients` (Active Connection Set),
  * `new_clients` : the `std::list<int> new_clients` (Pending-Accept Queue),
  * `max_clients` : the fixed capacity set at construction,
  * `closed`      : a ghost log of every socket descriptor that has been
    closed via `EthernetClient::stop()` (appended in call order).

Socket descriptors are modelled as natural numbers.  The operating-system
side (`EthernetClient::connected()`, `EthernetClient::available()`,
`EthernetClient::write()` and the `accept(2)` syscall) is not part of the
given source, so it is modelled as an oracle `Env`, one per public call.
-/

namespace EthernetServerModel

/-- Modelled from the spec: the source of `EthernetClient` is not part of
the given files, and the spec describes a connection handle by "two
live-queried boolean properties: connected (peer has not closed) and
has-pending-input (unread bytes available)", both re-evaluated from the OS
on each check.  `Env` freezes one OS observation for one public call:
`connected fd` and `avail fd` are those two booleans for descriptor `fd`,
`writeRet fd` is the number of bytes `EthernetClient(fd).write(buffer, size)`
accepts, and `acceptFd` is the result of the non-blocking `accept` syscall
(`none` covers both "would block" and a reported error, which differ only in
logging). -/
structure Env where
  connected : Nat → Bool
  avail : Nat → Bool
  writeRet : Nat → Nat
  acceptFd : Option Nat

/-- The mutable state of one `EthernetServer` object, plus the ghost list
`closed` of descriptors closed so far. -/
structure ServerState where
  max_clients : Nat
  clients : List Nat
  new_clients : List Nat
  closed : List Nat
deriving DecidableEq, Repr

/-- The "dead" criterion used by both reclamation scans of `_accept`:
`!client.connected() && !client.available()`. -/
def deadFd (e : Env) (fd : Nat) : Bool :=
  !e.connected fd && !e.avail fd

/-- `clients[i] = clients.back(); clients.pop_back();` — the swap-with-last
removal used on the `clients` vector. -/
def removeSwap (l : List Nat) (i : Nat) : List Nat :=
  (l.set i (l.getLastD 0)).dropLast

theorem removeSwap_length (l : List Nat) (i : Nat) :
    (removeSwap l i).length = l.length - 1 := by
  simp [removeSwap]

/-- The first reclamation scan of `_accept` (lines 172–182): walk the
`clients` vector from index `i`; a handle that is connected or has pending
input is skipped (`i++`); the first dead handle is removed by swap-with-last
and the scan stops (`break`, with `no_free_slots = false`).  `none` means the
scan found no dead handle (the loop ran off the end).  Note the source does
NOT call `client.stop()` here: the removed descriptor is not closed. -/
def scanActive (e : Env) (l : List Nat) (i : Nat) : Option (List Nat) :=
  if h : i < l.length then
    if e.connected (l.get ⟨i, h⟩) || e.avail (l.get ⟨i, h⟩) then
      scanActive e l (i + 1)
    else
      some (removeSwap l i)
  else
    none
termination_by l.length - i
decreasing_by
  all_goals simp [removeSwap_length]
  all_goals omega

/-- The second reclamation scan of `_accept` (lines 184–191): walk the
`new_clients` list in order and erase the first element that is neither
connected nor carrying pending input.  `none` means no such element.  As in
the source, the erased descriptor is not closed. -/
def erasePend (e : Env) : List Nat → Option (List Nat)
  | [] => none
  | fd :: rest =>
    if deadFd e fd then some rest
    else (erasePend e rest).map (fun l => fd :: l)

/-- Lines 199–209 of `_accept`: one non-blocking `accept`.  On failure
(would-block or error) the state is unchanged; on success the new descriptor
is pushed to the back of both `new_clients` and `clients`. -/
def acceptNew (e : Env) (s : ServerState) : ServerState :=
  match e.acceptFd with
  | none => s
  | some fd =>
    { s with clients := s.clients ++ [fd], new_clients := s.new_clients ++ [fd] }

/-- `EthernetServer::_accept()` (lines 162–214).  The capacity gate is the
source's exact test `new_clients.size() + clients.size() == max_clients`;
when it holds, the `clients` scan runs first, the `new_clients` scan runs
only if the first found nothing, and if both fail the attempt is aborted
before any `accept`. -/
def accept_ (e : Env) (s : ServerState) : ServerState :=
  if s.new_clients.length + s.clients.length = s.max_clients then
    match scanActive e s.clients 0 with
    | some clients2 => acceptNew e { s with clients := clients2 }
    | none =>
      match erasePend e s.new_clients with
      | some new2 => acceptNew e { s with new_clients := new2 }
      | none => s
  else
    acceptNew e s

/-- `EthernetServer::hasClient()` (lines 107–112): one `_accept()` attempt,
then report `!new_clients.empty()`. -/
def hasClient (e : Env) (s : ServerState) : Bool × ServerState :=
  let s2 := accept_ e s
  (!s2.new_clients.isEmpty, s2)

/-- `EthernetServer::available()` (lines 114–123): pop the front of
`new_clients` and return `EthernetClient(sock)`, or return the default
(unconnected) `EthernetClient()` — modelled as `none` — when the queue is
empty. -/
def available (s : ServerState) : Option Nat × ServerState :=
  match s.new_clients with
  | [] => (none, s)
  | fd :: rest => (some fd, { s with new_clients := rest })

/-- The broadcast loop of `EthernetServer::write(buffer, size)` (lines
135–146), with loop state `(i, l)`, the running total `n` and the ghost log
`closed`.  A connected handle receives the write and `i` advances; a handle
that is neither connected nor has pending input is stopped (descriptor
closed) and removed by swap-with-last with `i` unchanged.  A handle that is
not connected but still has pending input matches neither branch and `i`
does not advance, so with a fixed OS observation the C++ loop re-tests the
same handle forever; that divergence is modelled as `none`. -/
def writeLoop (e : Env) (l : List Nat) (i : Nat) (n : Nat) (closed : List Nat) :
    Option (Nat × List Nat × List Nat) :=
  if h : i < l.length then
    if e.connected (l.get ⟨i, h⟩) then
      writeLoop e l (i + 1) (n + e.writeRet (l.get ⟨i, h⟩)) closed
    else if !e.avail (l.get ⟨i, h⟩) then
      writeLoop e (removeSwap l i) i n (closed ++ [l.get ⟨i, h⟩])
    else
      none
  else
    some (n, l, closed)
termination_by l.length - i
decreasing_by
  all_goals simp [removeSwap_length]
  all_goals omega

/-- `EthernetServer::write(const uint8_t *buffer, size_t size)` (lines
130–149).  The buffer contents and `size` do not influence the control flow
of the given source (the per-handle byte count comes back from
`EthernetClient::write`, modelled by `Env.writeRet`), so `size` is carried
only for signature fidelity.  `none` models non-termination of the loop. -/
def write (e : Env) (size : Nat) (s : ServerState) : Option (Nat × ServerState) :=
  match writeLoop e s.clients 0 0 [] with
  | none => none
  | some (n, cl, closedNew) =>
    some (n, { s with clients := cl, closed := s.closed ++ closedNew })

/-- `EthernetServer::write(const char *str)` (lines 151–155): a NULL
pointer (modelled as `none`) returns 0 immediately; otherwise delegate to
the buffer overload with `strlen(str)`. -/
def writeStr (e : Env) (str : Option (List Nat)) (s : ServerState) :
    Option (Nat × ServerState) :=
  match str with
  | none => some (0, s)
  | some bytes => write e bytes.length s

/-- One public operation of the server, with the OS observation (`Env`)
under which it runs.  `begin()` only touches the listening socket, never
`clients`/`new_clients`, so it is the identity on the modelled state and is
omitted. -/
inductive Op where
  | opHasClient (e : Env)
  | opAvailable
  | opWrite (e : Env) (size : Nat)
  | opWriteStr (e : Env) (str : Option (List Nat))

/-- The OS observation an operation runs under (`available()` makes no OS
query). -/
def opEnv : Op → Option Env
  | .opHasClient e => some e
  | .opAvailable => none
  | .opWrite e _ => some e
  | .opWriteStr e _ => some e

/-- One step of the server; `none` when the operation never returns. -/
def step (s : ServerState) : Op → Option ServerState
  | .opHasClient e => some (hasClient e s).2
  | .opAvailable => some (available s).2
  | .opWrite e size => (write e size s).map (fun p => p.2)
  | .opWriteStr e str => (writeStr e str s).map (fun p => p.2)

/-- Run a sequence of public calls from a state. -/
def run (s : ServerState) : List Op → Option ServerState
  | [] => some s
  | op :: ops =>
    match step s op with
    | none => none
    | some s2 => run s2 ops

/-- The state right after construction: both collections empty, nothing
closed. -/
def initState (max : Nat) : ServerState :=
  ⟨max, [], [], []⟩

/-- A state is reachable if some sequence of completed public calls produces
it from the initial state. -/
def Reachable (max : Nat) (s : ServerState) : Prop :=
  ∃ ops, run (initState max) ops = some s

/-! ### Helper lemmas about swap-with-last removal -/

theorem removeSwap_eq (l : List Nat) (i : Nat) (h : i < l.length) :
    removeSwap l i = l.take i ++ (l.getLastD 0 :: l.drop (i + 1)).dropLast := by
  unfold removeSwap
  rw [List.set_eq_take_cons_drop _ h, List.dropLast_append_cons]

theorem length_take_eq (l : List Nat) (i : Nat) (h : i < l.length) :
    (l.take i).length = i := by
  rw [List.length_take]; omega

theorem removeSwap_take (l : List Nat) (i : Nat) (h : i < l.length) :
    (removeSwap l i).take i = l.take i := by
  rw [removeSwap_eq l i h]
  exact List.take_left' (length_take_eq l i h)

theorem getLastD_eq_back (l : List Nat) (h : l ≠ []) :
    l.getLastD 0 = l.getLast h := by
  rw [List.getLastD_eq_getLast?, List.getLast?_eq_getLast l h, Option.getD_some]

theorem removeSwap_drop_perm (l : List Nat) (i : Nat) (h : i < l.length) :
    List.Perm (l[i] :: (removeSwap l i).drop i) (l.drop i) := by
  rw [removeSwap_eq l i h, List.drop_left' (length_take_eq l i h)]
  rcases hX : l.drop (i + 1) with _ | ⟨c, X⟩
  · have hdi : l.drop i = [l[i]] := by
      rw [List.drop_eq_getElem_cons h, hX]
    rw [hdi]
    simp
  · have hb : l.getLastD 0 = (c :: X).getLast (by simp) := by
      have hsplit : l = l.take (i + 1) ++ (c :: X) := by
        rw [← hX, List.take_append_drop]
      rw [List.getLastD_eq_getLast?]
      conv_lhs => rw [hsplit]
      rw [List.getLast?_append_cons, List.getLast?_eq_getLast (c :: X) (by simp),
        Option.getD_some]
    have hdi : l.drop i = l[i] :: (c :: X) := by
      rw [List.drop_eq_getElem_cons h, hX]
    rw [hdi, List.dropLast_cons₂, hb]
    refine List.Perm.cons _ ?_
    conv_rhs => rw [← List.dropLast_append_getLast (show (c :: X) ≠ [] by simp)]
    exact (List.perm_append_singleton _ _).symm

theorem removeSwap_perm (l : List Nat) (i : Nat) (h : i < l.length) :
    List.Perm (l[i] :: removeSwap l i) l := by
  have h1 := removeSwap_drop_perm l i h
  have h2 : l[i] :: removeSwap l i
      = l[i] :: ((removeSwap l i).take i ++ (removeSwap l i).drop i) := by
    rw [List.take_append_drop]
  rw [h2, removeSwap_take l i h]
  have h3 : List.Perm (l.take i ++ l.drop i) l := by
    rw [List.take_append_drop]
  exact (List.perm_middle.symm.trans (List.Perm.append_left _ h1)).trans h3

/-! ### Equation lemmas for the broadcast loop and the reclamation scans -/

theorem writeLoop_done (e : Env) (l : List Nat) (i n : Nat) (closed : List Nat)
    (h : ¬ i < l.length) :
    writeLoop e l i n closed = some (n, l, closed) := by
  rw [writeLoop]
  simp [h]

theorem writeLoop_step_conn (e : Env) (l : List Nat) (i n : Nat) (closed : List Nat)
    (h : i < l.length) (hc : e.connected l[i] = true) :
    writeLoop e l i n closed = writeLoop e l (i + 1) (n + e.writeRet l[i]) closed := by
  rw [writeLoop]
  simp [h, List.get_eq_getElem, hc]

theorem writeLoop_step_dead (e : Env) (l : List Nat) (i n : Nat) (closed : List Nat)
    (h : i < l.length) (hc : e.connected l[i] = false) (ha : e.avail l[i] = false) :
    writeLoop e l i n closed = writeLoop e (removeSwap l i) i n (closed ++ [l[i]]) := by
  rw [writeLoop]
  simp [h, List.get_eq_getElem, hc, ha]

theorem writeLoop_step_halfclosed (e : Env) (l : List Nat) (i n : Nat) (closed : List Nat)
    (h : i < l.length) (hc : e.connected l[i] = false) (ha : e.avail l[i] = true) :
    writeLoop e l i n closed = none := by
  rw [writeLoop]
  simp [h, List.get_eq_getElem, hc, ha]

theorem scanActive_done (e : Env) (l : List Nat) (i : Nat) (h : ¬ i < l.length) :
    scanActive e l i = none := by
  rw [scanActive]
  simp [h]

theorem scanActive_step_live (e : Env) (l : List Nat) (i : Nat)
    (h : i < l.length) (hc : (e.connected l[i] || e.avail l[i]) = true) :
    scanActive e l i = scanActive e l (i + 1) := by
  rw [scanActive]
  simp only [List.get_eq_getElem, dif_pos h, hc, if_pos]

theorem scanActive_step_dead (e : Env) (l : List Nat) (i : Nat)
    (h : i < l.length) (hc : (e.connected l[i] || e.avail l[i]) = false) :
    scanActive e l i = some (removeSwap l i) := by
  rw [scanActive]
  simp only [List.get_eq_getElem, dif_pos h, hc, Bool.false_eq_true, if_false]

/-! ### The broadcast loop: full behaviour when no handle is half-closed -/

theorem writeLoop_spec (e : Env) :
    ∀ (k : Nat) (l : List Nat) (i n : Nat) (closed : List Nat),
      l.length - i ≤ k →
      (∀ fd ∈ l.drop i, e.connected fd = true ∨ e.avail fd = false) →
      (∀ fd ∈ l.take i, e.connected fd = true) →
      ∃ m cl cls, writeLoop e l i n closed = some (m, cl, cls) ∧
        List.Perm cl (l.take i ++ (l.drop i).filter e.connected) ∧
        m = n + (((l.drop i).filter e.connected).map e.writeRet).sum ∧
        List.Perm cls (closed ++ (l.drop i).filter (fun fd => !e.connected fd)) := by
  intro k
  induction k with
  | zero =>
    intro l i n closed hk hl hp
    have hi : ¬ i < l.length := by omega
    have hdrop : l.drop i = [] := List.drop_eq_nil_of_le (by omega)
    have htake : l.take i = l := List.take_of_length_le (by omega)
    refine ⟨n, l, closed, writeLoop_done e l i n closed hi, ?_, ?_, ?_⟩
    · rw [hdrop, htake]; simp
    · rw [hdrop]; simp
    · rw [hdrop]; simp
  | succ k ih =>
    intro l i n closed hk hl hp
    by_cases hi : i < l.length
    · have hdropi : l.drop i = l[i] :: l.drop (i + 1) := List.drop_eq_getElem_cons hi
      have hmemi : l[i] ∈ l.drop i := by rw [hdropi]; exact List.mem_cons_self _ _
      by_cases hc : e.connected l[i] = true
      · -- connected: write to it, advance i
        have hk2 : l.length - (i + 1) ≤ k := by omega
        have hl2 : ∀ fd ∈ l.drop (i + 1), e.connected fd = true ∨ e.avail fd = false := by
          intro fd hfd
          exact hl fd (by rw [hdropi]; exact List.mem_cons_of_mem _ hfd)
        have hp2 : ∀ fd ∈ l.take (i + 1), e.connected fd = true := by
          intro fd hfd
          rw [List.take_succ, List.getElem?_eq_getElem hi] at hfd
          simp only [Option.toList_some, List.mem_append, List.mem_singleton] at hfd
          rcases hfd with hfd | hfd
          · exact hp fd hfd
          · rw [hfd]; exact hc
        obtain ⟨m, cl, cls, heq, hperm, hm, hcls⟩ :=
          ih l (i + 1) (n + e.writeRet l[i]) closed hk2 hl2 hp2
        have htake2 : l.take (i + 1) = l.take i ++ [l[i]] := by
          rw [List.take_succ, List.getElem?_eq_getElem hi]
          simp
        refine ⟨m, cl, cls, ?_, ?_, ?_, ?_⟩
        · rw [writeLoop_step_conn e l i n closed hi hc]; exact heq
        · rw [hdropi, List.filter_cons, if_pos hc]
          have heqlist : l.take (i + 1) ++ (l.drop (i + 1)).filter e.connected
              = l.take i ++ l[i] :: (l.drop (i + 1)).filter e.connected := by
            rw [htake2, List.append_assoc]
            rfl
          rw [← heqlist]
          exact hperm
        · rw [hdropi, List.filter_cons, if_pos hc, hm]
          simp only [List.map_cons, List.sum_cons]
          omega
        · rw [hdropi, List.filter_cons]
          simp only [hc, Bool.not_true, Bool.false_eq_true, if_false]
          exact hcls
      · have hcb : e.connected l[i] = false := by
          cases hcv : e.connected l[i]
          · rfl
          · exact absurd hcv hc
        have hav : e.avail l[i] = false := by
          rcases hl l[i] hmemi with hv | hv
          · exact absurd hv hc
          · exact hv
        -- dead and silent: stop it, swap-with-last, do not advance i
        set l2 := removeSwap l i with hl2def
        have hk2 : l2.length - i ≤ k := by
          rw [hl2def, removeSwap_length]; omega
        have hdperm := removeSwap_drop_perm l i hi
        have hl2h : ∀ fd ∈ l2.drop i, e.connected fd = true ∨ e.avail fd = false := by
          intro fd hfd
          exact hl fd (hdperm.mem_iff.mp (List.mem_cons_of_mem _ hfd))
        have hp2 : ∀ fd ∈ l2.take i, e.connected fd = true := by
          intro fd hfd
          rw [hl2def, removeSwap_take l i hi] at hfd
          exact hp fd hfd
        obtain ⟨m, cl, cls, heq, hperm, hm, hcls⟩ :=
          ih l2 i n (closed ++ [l[i]]) hk2 hl2h hp2
        have hfilterc : List.Perm ((l.drop i).filter e.connected)
            ((l2.drop i).filter e.connected) := by
          have := (hdperm.filter e.connected).symm
          rw [List.filter_cons] at this
          simpa [hcb] using this
        have hfilterd : List.Perm ((l.drop i).filter (fun fd => !e.connected fd))
            (l[i] :: (l2.drop i).filter (fun fd => !e.connected fd)) := by
          have := (hdperm.filter (fun fd => !e.connected fd)).symm
          rw [List.filter_cons] at this
          simpa [hcb] using this
        refine ⟨m, cl, cls, ?_, ?_, ?_, ?_⟩
        · rw [writeLoop_step_dead e l i n closed hi hcb hav]; exact heq
        · refine hperm.trans ?_
          rw [hl2def, removeSwap_take l i hi]
          exact (List.Perm.append_left _ hfilterc.symm)
        · rw [hm]
          have := (hfilterc.map e.writeRet).sum_eq
          omega
        · refine hcls.trans ?_
          have hstep : List.Perm
              (closed ++ l[i] :: (l2.drop i).filter (fun fd => !e.connected fd))
              (closed ++ (l.drop i).filter (fun fd => !e.connected fd)) :=
            List.Perm.append_left _ hfilterd.symm
          refine List.Perm.trans ?_ hstep
          simp [List.append_assoc]
    · have hdrop : l.drop i = [] := List.drop_eq_nil_of_le (by omega)
      have htake : l.take i = l := List.take_of_length_le (by omega)
      refine ⟨n, l, closed, writeLoop_done e l i n closed hi, ?_, ?_, ?_⟩
      · rw [hdrop, htake]; simp
      · rw [hdrop]; simp
      · rw [hdrop]; simp

/-- Every handle that is connected or has pending input under the call's OS
observation survives a completed broadcast pass. -/
theorem writeLoop_keeps_live (e : Env) :
    ∀ (k : Nat) (l : List Nat) (i n : Nat) (closed : List Nat) (m : Nat)
      (cl cls : List Nat),
      l.length - i ≤ k →
      writeLoop e l i n closed = some (m, cl, cls) →
      ∀ fd ∈ l, (e.connected fd = true ∨ e.avail fd = true) → fd ∈ cl := by
  intro k
  induction k with
  | zero =>
    intro l i n closed m cl cls hk heq fd hfd hlive
    have hi : ¬ i < l.length := by omega
    rw [writeLoop_done e l i n closed hi] at heq
    cases heq
    exact hfd
  | succ k ih =>
    intro l i n closed m cl cls hk heq fd hfd hlive
    by_cases hi : i < l.length
    · by_cases hc : e.connected l[i] = true
      · rw [writeLoop_step_conn e l i n closed hi hc] at heq
        exact ih l (i + 1) _ closed m cl cls (by omega) heq fd hfd hlive
      · have hcb : e.connected l[i] = false := by
          cases hcv : e.connected l[i]
          · rfl
          · exact absurd hcv hc
        by_cases ha : e.avail l[i] = true
        · rw [writeLoop_step_halfclosed e l i n closed hi hcb ha] at heq
          cases heq
        · have hab : e.avail l[i] = false := by
            cases hav : e.avail l[i]
            · rfl
            · exact absurd hav ha
          rw [writeLoop_step_dead e l i n closed hi hcb hab] at heq
          have hne : fd ≠ l[i] := by
            intro hfe
            rw [hfe] at hlive
            rcases hlive with hv | hv
            · rw [hcb] at hv; cases hv
            · rw [hab] at hv; cases hv
          have hmem2 : fd ∈ removeSwap l i := by
            have := (removeSwap_perm l i hi).mem_iff.mpr hfd
            rcases List.mem_cons.mp this with hfe | hfe
            · exact absurd hfe hne
            · exact hfe
          exact ih (removeSwap l i) i n _ m cl cls
            (by rw [removeSwap_length]; omega) heq fd hmem2 hlive
    · rw [writeLoop_done e l i n closed hi] at heq
      cases heq
      exact hfd

/-! ### The reclamation scans: behaviour on live and on dead handles -/

theorem deadFd_false_iff (e : Env) (fd : Nat) :
    deadFd e fd = false ↔ (e.connected fd || e.avail fd) = true := by
  cases hc : e.connected fd <;> cases ha : e.avail fd <;> simp [deadFd, hc, ha]

theorem scanActive_none_of_live (e : Env) :
    ∀ (k : Nat) (l : List Nat) (i : Nat),
      l.length - i ≤ k →
      (∀ fd ∈ l.drop i, deadFd e fd = false) →
      scanActive e l i = none := by
  intro k
  induction k with
  | zero =>
    intro l i hk hl
    exact scanActive_done e l i (by omega)
  | succ k ih =>
    intro l i hk hl
    by_cases hi : i < l.length
    · have hdropi : l.drop i = l[i] :: l.drop (i + 1) := List.drop_eq_getElem_cons hi
      have hmemi : l[i] ∈ l.drop i := by rw [hdropi]; exact List.mem_cons_self _ _
      have hlive := (deadFd_false_iff e l[i]).mp (hl l[i] hmemi)
      rw [scanActive_step_live e l i hi hlive]
      refine ih l (i + 1) (by omega) ?_
      intro fd hfd
      exact hl fd (by rw [hdropi]; exact List.mem_cons_of_mem _ hfd)
    · exact scanActive_done e l i hi

theorem scanActive_some_of_dead (e : Env) :
    ∀ (k : Nat) (l : List Nat) (i : Nat),
      l.length - i ≤ k →
      (∃ fd ∈ l.drop i, deadFd e fd = true) →
      ∃ j, ∃ h : j < l.length, i ≤ j ∧ deadFd e l[j] = true ∧
        scanActive e l i = some (removeSwap l j) := by
  intro k
  induction k with
  | zero =>
    intro l i hk hex
    have hdrop : l.drop i = [] := List.drop_eq_nil_of_le (by omega)
    rw [hdrop] at hex
    simp at hex
  | succ k ih =>
    intro l i hk hex
    have hi : i < l.length := by
      by_contra hi
      rw [List.drop_eq_nil_of_le (by omega)] at hex
      simp at hex
    have hdropi : l.drop i = l[i] :: l.drop (i + 1) := List.drop_eq_getElem_cons hi
    by_cases hd : deadFd e l[i] = true
    · have hcond : (e.connected l[i] || e.avail l[i]) = false := by
        rcases Bool.eq_false_or_eq_true (e.connected l[i] || e.avail l[i]) with hv | hv
        · rw [← deadFd_false_iff] at hv
          rw [hv] at hd
          simp at hd
        · exact hv
      exact ⟨i, hi, Nat.le_refl i, hd, scanActive_step_dead e l i hi hcond⟩
    · have hdb : deadFd e l[i] = false := by
        cases hv : deadFd e l[i]
        · rfl
        · exact absurd hv hd
      have hlive := (deadFd_false_iff e l[i]).mp hdb
      rw [scanActive_step_live e l i hi hlive]
      have hex2 : ∃ fd ∈ l.drop (i + 1), deadFd e fd = true := by
        rcases hex with ⟨fd, hfd, hfdd⟩
        rw [hdropi] at hfd
        rcases List.mem_cons.mp hfd with hfe | hfe
        · rw [hfe] at hfdd; exact absurd hfdd hd
        · exact ⟨fd, hfe, hfdd⟩
      obtain ⟨j, hj, hij, hjd, heq⟩ := ih l (i + 1) (by omega) hex2
      exact ⟨j, hj, by omega, hjd, heq⟩

theorem erasePend_none_of_live (e : Env) (l : List Nat)
    (hl : ∀ fd ∈ l, deadFd e fd = false) :
    erasePend e l = none := by
  induction l with
  | nil => rfl
  | cons fd rest ih =>
    have hfd := hl fd (List.mem_cons_self _ _)
    rw [erasePend, hfd]
    simp only [Bool.false_eq_true, if_false]
    rw [ih (fun x hx => hl x (List.mem_cons_of_mem _ hx))]
    rfl

theorem erasePend_some_elim (e : Env) :
    ∀ (l l2 : List Nat), erasePend e l = some l2 →
      ∃ d, deadFd e d = true ∧ List.Perm (d :: l2) l := by
  intro l
  induction l with
  | nil =>
    intro l2 heq
    cases heq
  | cons fd rest ih =>
    intro l2 heq
    rw [erasePend] at heq
    by_cases hd : deadFd e fd = true
    · rw [if_pos hd] at heq
      cases heq
      exact ⟨fd, hd, List.Perm.refl _⟩
    · rw [if_neg hd] at heq
      rcases hrec : erasePend e rest with _ | rest2
      · rw [hrec] at heq
        cases heq
      · rw [hrec] at heq
        cases heq
        obtain ⟨d, hdd, hperm⟩ := ih rest2 hrec
        refine ⟨d, hdd, ?_⟩
        exact (List.Perm.swap fd d rest2).trans (hperm.cons fd)

theorem erasePend_some_of_dead (e : Env) :
    ∀ (l : List Nat), (∃ fd ∈ l, deadFd e fd = true) →
      ∃ l2, erasePend e l = some l2 := by
  intro l
  induction l with
  | nil =>
    intro hex
    simp at hex
  | cons fd rest ih =>
    intro hex
    rw [erasePend]
    by_cases hd : deadFd e fd = true
    · rw [if_pos hd]
      exact ⟨rest, rfl⟩
    · rw [if_neg hd]
      have hex2 : ∃ x ∈ rest, deadFd e x = true := by
        rcases hex with ⟨x, hx, hxd⟩
        rcases List.mem_cons.mp hx with hfe | hfe
        · rw [hfe] at hxd; exact absurd hxd hd
        · exact ⟨x, hfe, hxd⟩
      obtain ⟨l2, hl2⟩ := ih hex2
      rw [hl2]
      exact ⟨fd :: l2, rfl⟩

theorem scanActive_some_elim (e : Env) :
    ∀ (k : Nat) (l : List Nat) (i : Nat), l.length - i ≤ k →
      ∀ l2, scanActive e l i = some l2 →
      ∃ j, ∃ h : j < l.length, i ≤ j ∧ deadFd e l[j] = true ∧ l2 = removeSwap l j := by
  intro k
  induction k with
  | zero =>
    intro l i hk l2 heq
    rw [scanActive_done e l i (by omega)] at heq
    cases heq
  | succ k ih =>
    intro l i hk l2 heq
    by_cases hi : i < l.length
    · by_cases hd : deadFd e l[i] = true
      · have hcond : (e.connected l[i] || e.avail l[i]) = false := by
          rcases Bool.eq_false_or_eq_true (e.connected l[i] || e.avail l[i]) with hv | hv
          · rw [← deadFd_false_iff] at hv
            rw [hv] at hd
            simp at hd
          · exact hv
        rw [scanActive_step_dead e l i hi hcond] at heq
        cases heq
        exact ⟨i, hi, Nat.le_refl i, hd, rfl⟩
      · have hdb : deadFd e l[i] = false := by
          cases hv : deadFd e l[i]
          · rfl
          · exact absurd hv hd
        rw [scanActive_step_live e l i hi ((deadFd_false_iff e l[i]).mp hdb)] at heq
        obtain ⟨j, hj, hij, hjd, hl2⟩ := ih l (i + 1) (by omega) l2 heq
        exact ⟨j, hj, by omega, hjd, hl2⟩
    · rw [scanActive_done e l i hi] at heq
      cases heq

/-- A handle that is connected or has pending input is a different
descriptor from any dead one (the OS properties are functions of the
descriptor). -/
theorem live_not_dead (e : Env) (x y : Nat)
    (hx : e.connected x = true ∨ e.avail x = true) (hy : deadFd e y = true) :
    x ≠ y := by
  intro hxy
  subst hxy
  rcases hx with hv | hv <;> simp [deadFd, hv] at hy

/-! ### Concrete OS observations used in witnesses and counterexamples -/

/-- Every descriptor looks connected; one inbound connection (descriptor 5)
is waiting. -/
def eAcc5 : Env := ⟨fun _ => true, fun _ => false, fun _ => 0, some 5⟩

/-- Every descriptor looks disconnected with no pending input; one inbound
connection (descriptor 6) is waiting. -/
def eDeadAcc6 : Env := ⟨fun _ => false, fun _ => false, fun _ => 0, some 6⟩

/-- Every descriptor looks disconnected with no pending input; `accept`
would block. -/
def eDead : Env := ⟨fun _ => false, fun _ => false, fun _ => 0, none⟩

/-- Every descriptor looks disconnected but still has unread pending input
(peer half-closed after sending); `accept` would block. -/
def eHalf : Env := ⟨fun _ => false, fun _ => true, fun _ => 0, none⟩

/-- Every descriptor looks connected; `accept` would block. -/
def eNone : Env := ⟨fun _ => true, fun _ => false, fun _ => 0, none⟩

/-- Every descriptor looks connected; one inbound connection (descriptor 9)
is waiting. -/
def eAccLive : Env := ⟨fun _ => true, fun _ => false, fun _ => 0, some 9⟩

/-- Descriptors 1 and 2 are connected, everything else is disconnected with
no pending input; a write to descriptor `fd` accepts `fd` bytes. -/
def eTwoLive : Env := ⟨fun fd => fd == 1 || fd == 2, fun _ => false, fun fd => fd, none⟩

/-! ### Claim theorems -/

/-- C10: calling the C-string broadcast overload `write(const char *str)`
with a NULL pointer returns 0 and leaves all server state unchanged — no
write is attempted on any connection and no eviction occurs. -/
theorem writeStr_null_noop (e : Env) (s : ServerState) :
    writeStr e none s = some (0, s) := rfl

/-- C8: `available()` removes and returns the oldest handle of the
Pending-Accept Queue (the front of the FIFO list `new_clients`, the one
accepted earliest among those still pending) when the queue is non-empty,
and returns the default unconnected client (`none`) with no side effect on
any server state when the queue is empty, so repeated calls on an empty
queue all return `none`. -/
theorem available_fifo_spec (s : ServerState) :
    (s.new_clients = [] → available s = (none, s)) ∧
    (∀ fd rest, s.new_clients = fd :: rest →
      available s = (some fd, { s with new_clients := rest })) := by
  constructor
  · intro h
    simp [available, h]
  · intro fd rest h
    simp [available, h]

theorem available_fifo_spec_witness :
    available ⟨2, [7, 8], [7], []⟩ = (some 7, ⟨2, [7, 8], [], []⟩) :=
  (available_fifo_spec ⟨2, [7, 8], [7], []⟩).2 7 [] rfl

/-- C2 (code bug): a broadcast `write(buffer, size)` over an Active set
containing a handle that is not connected but still has pending unread
input never returns.  In the loop of lines 135–146 such a handle matches
neither branch and `i` is not advanced, so the same handle is re-tested
forever; the model returns `none` for this divergence.  The claim says the
call terminates, keeps the handle and skips the write. -/
theorem write_halfclosed_diverges :
    eHalf.connected 5 = false ∧ eHalf.avail 5 = true ∧
    write eHalf 3 ⟨4, [5], [], []⟩ = none := by
  refine ⟨rfl, rfl, ?_⟩
  have hwl : writeLoop eHalf [5] 0 0 [] = none :=
    writeLoop_step_halfclosed eHalf [5] 0 0 [] (by simp) rfl rfl
  simp [write, hwl]

/-- C1 (code bug): the capacity invariant `|Active| + |Pending| ≤ Capacity`
is violated on a reachable state.  The gate at line 169 compares
`new_clients.size() + clients.size()` (which double-counts every pending
handle) with `max_clients` using equality, so with capacity 1 the very
first accept yields `|Active| + |Pending| = 2 > 1`. -/
theorem capacity_bound_violated :
    ∃ s, run (initState 1) [Op.opHasClient eAcc5] = some s ∧
      s.max_clients < s.clients.length + s.new_clients.length := by
  refine ⟨⟨1, [5], [5], []⟩, ?_, by decide⟩
  simp [run, step, hasClient, accept_, acceptNew, initState, eAcc5]

/-- C3 (code bug): a descriptor that leaves the Active set during the
capacity-reclamation scan of `_accept` is never closed.  Descriptor 5 is
accepted (enters `clients`), goes dead, and the next `_accept` at capacity
removes it from `clients` by swap-with-last without any `stop()` call: the
ghost log of closed descriptors stays empty — a leak, where the claim says
the scan closes the descriptor exactly once. -/
theorem reclaim_leaks_descriptor :
    ∃ s1 s2, step (initState 2) (Op.opHasClient eAcc5) = some s1 ∧
      5 ∈ s1.clients ∧
      step s1 (Op.opHasClient eDeadAcc6) = some s2 ∧
      5 ∉ s2.clients ∧ s2.closed = [] := by
  refine ⟨⟨2, [5], [5], []⟩, ⟨2, [6], [5, 6], []⟩, ?_, by decide, ?_, by decide, rfl⟩
  · simp [step, hasClient, accept_, acceptNew, initState, eAcc5]
  · have hscan : scanActive eDeadAcc6 [5] 0 = some [] := by
      rw [scanActive_step_dead eDeadAcc6 [5] 0 (by simp) rfl]
      rfl
    simp [step, hasClient, accept_, acceptNew, hscan,
      show eDeadAcc6.acceptFd = some 6 from rfl]

/-- C9 (counterexample): the Pending-Accept Queue is not always a subset of
the Active Connection Set.  Descriptor 5 is accepted (entering both lists),
goes dead while still unclaimed, and a broadcast pass evicts it from
`clients` while it remains in `new_clients`. -/
theorem pending_escapes_active :
    ∃ s, run (initState 2) [Op.opHasClient eAcc5, Op.opWrite eDead 3] = some s ∧
      ¬ (∀ fd ∈ s.new_clients, fd ∈ s.clients) := by
  refine ⟨⟨2, [], [5], [5]⟩, ?_, by decide⟩
  have h0 : removeSwap [5] 0 = ([] : List Nat) := rfl
  have hwl : writeLoop eDead [5] 0 0 [] = some (0, [], [5]) := by
    rw [writeLoop_step_dead eDead [5] 0 0 [] (by simp) rfl rfl, h0]
    exact writeLoop_done eDead [] 0 0 [5] (by simp)
  simp [run, step, write, hwl, hasClient, accept_, acceptNew, initState, eAcc5]

/-- Appending an accepted descriptor to both lists preserves the subset
relation of `new_clients` in `clients`. -/
theorem acceptNew_pres (e : Env) (s : ServerState)
    (hsub : ∀ fd ∈ s.new_clients, fd ∈ s.clients) :
    ∀ fd ∈ (acceptNew e s).new_clients, fd ∈ (acceptNew e s).clients := by
  rcases hacc : e.acceptFd with _ | fd0 <;> simp only [acceptNew, hacc]
  · exact hsub
  · intro fd hfd
    simp only [List.mem_append, List.mem_singleton] at hfd ⊢
    rcases hfd with hfd | hfd
    · exact Or.inl (hsub fd hfd)
    · exact Or.inr hfd

/-- `_accept` preserves `new_clients ⊆ clients` whenever every pending
handle is live under the call's OS observation. -/
theorem accept_pres (e : Env) (s : ServerState)
    (hlive : ∀ fd ∈ s.new_clients, e.connected fd = true ∨ e.avail fd = true)
    (hsub : ∀ fd ∈ s.new_clients, fd ∈ s.clients) :
    ∀ fd ∈ (accept_ e s).new_clients, fd ∈ (accept_ e s).clients := by
  by_cases hgate : s.new_clients.length + s.clients.length = s.max_clients
  · rcases hscan : scanActive e s.clients 0 with _ | cl2
    · rcases hpend : erasePend e s.new_clients with _ | new2
      · have hacc : accept_ e s = s := by
          unfold accept_
          rw [if_pos hgate]
          simp only [hscan, hpend]
        rw [hacc]
        exact hsub
      · have hacc : accept_ e s = acceptNew e { s with new_clients := new2 } := by
          unfold accept_
          rw [if_pos hgate]
          simp only [hscan, hpend]
        obtain ⟨d, hd, hperm⟩ := erasePend_some_elim e s.new_clients new2 hpend
        rw [hacc]
        refine acceptNew_pres e _ ?_
        intro fd hfd
        exact hsub fd (hperm.mem_iff.mp (List.mem_cons_of_mem _ hfd))
    · have hacc : accept_ e s = acceptNew e { s with clients := cl2 } := by
        unfold accept_
        rw [if_pos hgate]
        simp only [hscan]
      obtain ⟨j, hj, _, hjd, hcl2⟩ :=
        scanActive_some_elim e s.clients.length s.clients 0 (by omega) cl2 hscan
      rw [hacc]
      refine acceptNew_pres e _ ?_
      intro fd hfd
      have hmem := hsub fd hfd
      have hne := live_not_dead e fd s.clients[j] (hlive fd hfd) hjd
      have hmem2 := (removeSwap_perm s.clients j hj).mem_iff.mpr hmem
      rcases List.mem_cons.mp hmem2 with hfe | hfe
      · exact absurd hfe hne
      · rw [hcl2]
        exact hfe
  · have hacc : accept_ e s = acceptNew e s := by
      unfold accept_
      rw [if_neg hgate]
    rw [hacc]
    exact acceptNew_pres e s hsub

/-- A completed broadcast preserves `new_clients ⊆ clients` whenever every
pending handle is live under the call's OS observation. -/
theorem write_pres (e : Env) (size : Nat) (s : ServerState) (n : Nat) (s2 : ServerState)
    (heq : write e size s = some (n, s2))
    (hlive : ∀ fd ∈ s.new_clients, e.connected fd = true ∨ e.avail fd = true)
    (hsub : ∀ fd ∈ s.new_clients, fd ∈ s.clients) :
    ∀ fd ∈ s2.new_clients, fd ∈ s2.clients := by
  unfold write at heq
  rcases hwl : writeLoop e s.clients 0 0 [] with _ | ⟨m, cl, cls⟩
  · rw [hwl] at heq
    exact Option.noConfusion heq
  · rw [hwl] at heq
    have h2 : (m, { s with clients := cl, closed := s.closed ++ cls }) = (n, s2) :=
      Option.some_inj.mp heq
    have hs2 : s2 = { s with clients := cl, closed := s.closed ++ cls } :=
      (congrArg Prod.snd h2).symm
    rw [hs2]
    intro fd hfd
    exact writeLoop_keeps_live e s.clients.length s.clients 0 0 [] m cl cls
      (by omega) hwl fd (hsub fd hfd) (hlive fd hfd)

/-- C9 (amended): a handle enters Active and Pending simultaneously at
accept and leaving Pending does not by itself change Active; the subset
relation `new_clients ⊆ clients` is preserved by every completed operation
whose OS observation keeps all pending handles live (connected or with
pending input).  (A pending handle that has gone dead-silent can be evicted
from Active while remaining in Pending, as the counterexample shows.) -/
theorem pending_subset_preserved (s s2 : ServerState) (op : Op)
    (hstep : step s op = some s2)
    (hlive : ∀ e, opEnv op = some e →
      ∀ fd ∈ s.new_clients, e.connected fd = true ∨ e.avail fd = true)
    (hsub : ∀ fd ∈ s.new_clients, fd ∈ s.clients) :
    ∀ fd ∈ s2.new_clients, fd ∈ s2.clients := by
  cases op with
  | opHasClient e =>
    have hs2 : s2 = accept_ e s := by
      simp only [step, hasClient] at hstep
      exact (Option.some_inj.mp hstep).symm
    rw [hs2]
    exact accept_pres e s (hlive e rfl) hsub
  | opAvailable =>
    rcases hn : s.new_clients with _ | ⟨fd0, rest⟩
    · have hs2 : s2 = s := by
        simp only [step, available, hn] at hstep
        exact (Option.some_inj.mp hstep).symm
      rw [hs2]
      exact hsub
    · have hs2 : s2 = { s with new_clients := rest } := by
        simp only [step, available, hn] at hstep
        exact (Option.some_inj.mp hstep).symm
      rw [hs2]
      intro fd hfd
      exact hsub fd (by rw [hn]; exact List.mem_cons_of_mem _ hfd)
  | opWrite e size =>
    rcases heqw : write e size s with _ | ⟨n, s3⟩
    · simp only [step, heqw, Option.map_none'] at hstep
      exact Option.noConfusion hstep
    · simp only [step, heqw, Option.map_some'] at hstep
      have hs2 : s2 = s3 := (Option.some_inj.mp hstep).symm
      rw [hs2]
      exact write_pres e size s n s3 heqw (hlive e rfl) hsub
  | opWriteStr e str =>
    rcases str with _ | bytes
    · have hs2 : s2 = s := by
        simp only [step, writeStr, Option.map_some'] at hstep
        exact (Option.some_inj.mp hstep).symm
      rw [hs2]
      exact hsub
    · rcases heqw : write e bytes.length s with _ | ⟨n, s3⟩
      · simp only [step, writeStr, heqw, Option.map_none'] at hstep
        exact Option.noConfusion hstep
      · simp only [step, writeStr, heqw, Option.map_some'] at hstep
        have hs2 : s2 = s3 := (Option.some_inj.mp hstep).symm
        rw [hs2]
        exact write_pres e bytes.length s n s3 heqw (hlive e rfl) hsub

theorem pending_subset_preserved_witness :
    (step ⟨3, [7], [7], []⟩ (Op.opHasClient eAccLive) = some ⟨3, [7, 9], [7, 9], []⟩) ∧
    (∀ e, opEnv (Op.opHasClient eAccLive) = some e →
      ∀ fd ∈ (⟨3, [7], [7], []⟩ : ServerState).new_clients,
        e.connected fd = true ∨ e.avail fd = true) ∧
    (∀ fd ∈ (⟨3, [7], [7], []⟩ : ServerState).new_clients,
      fd ∈ (⟨3, [7], [7], []⟩ : ServerState).clients) ∧
    (∀ fd ∈ (⟨3, [7, 9], [7, 9], []⟩ : ServerState).new_clients,
      fd ∈ (⟨3, [7, 9], [7, 9], []⟩ : ServerState).clients) := by
  have hstep : step ⟨3, [7], [7], []⟩ (Op.opHasClient eAccLive)
      = some ⟨3, [7, 9], [7, 9], []⟩ := by
    simp [step, hasClient, accept_, acceptNew, eAccLive]
  have hlive : ∀ e, opEnv (Op.opHasClient eAccLive) = some e →
      ∀ fd ∈ (⟨3, [7], [7], []⟩ : ServerState).new_clients,
        e.connected fd = true ∨ e.avail fd = true := by
    intro e he
    cases he
    intro fd _
    exact Or.inl rfl
  exact ⟨hstep, hlive, by decide,
    pending_subset_preserved ⟨3, [7], [7], []⟩ ⟨3, [7, 9], [7, 9], []⟩
      (Op.opHasClient eAccLive) hstep hlive (by decide)⟩

theorem acceptNew_none (e : Env) (s : ServerState) (h : e.acceptFd = none) :
    acceptNew e s = s := by
  unfold acceptNew
  rw [h]

theorem acceptNew_some (e : Env) (s : ServerState) (fd : Nat) (h : e.acceptFd = some fd) :
    acceptNew e s
      = { s with clients := s.clients ++ [fd], new_clients := s.new_clients ++ [fd] } := by
  unfold acceptNew
  rw [h]

/-- C5: at capacity with every tracked handle (Active and Pending) live,
`_accept` aborts before the `accept` syscall: both reclamation scans fail
and the whole server state is returned unchanged, even if an inbound
connection is waiting. -/
theorem accept_at_capacity_all_live (e : Env) (s : ServerState)
    (hcap : s.new_clients.length + s.clients.length = s.max_clients)
    (hc : ∀ fd ∈ s.clients, e.connected fd = true ∨ e.avail fd = true)
    (hn : ∀ fd ∈ s.new_clients, e.connected fd = true ∨ e.avail fd = true) :
    accept_ e s = s := by
  have hscan : scanActive e s.clients 0 = none := by
    refine scanActive_none_of_live e s.clients.length s.clients 0 (by omega) ?_
    intro fd hfd
    rw [List.drop_zero] at hfd
    rw [deadFd_false_iff]
    rcases hc fd hfd with hv | hv <;> simp [hv]
  have hpend : erasePend e s.new_clients = none := by
    refine erasePend_none_of_live e s.new_clients ?_
    intro fd hfd
    rw [deadFd_false_iff]
    rcases hn fd hfd with hv | hv <;> simp [hv]
  unfold accept_
  rw [if_pos hcap]
  simp only [hscan, hpend]

theorem accept_at_capacity_all_live_witness :
    ((⟨2, [7], [7], []⟩ : ServerState).new_clients.length
        + (⟨2, [7], [7], []⟩ : ServerState).clients.length
        = (⟨2, [7], [7], []⟩ : ServerState).max_clients) ∧
    eAccLive.acceptFd = some 9 ∧
    accept_ eAccLive ⟨2, [7], [7], []⟩ = ⟨2, [7], [7], []⟩ :=
  ⟨by decide, rfl,
    accept_at_capacity_all_live eAccLive ⟨2, [7], [7], []⟩ (by decide) (by decide)
      (by decide)⟩

/-- C6: at capacity with at least one dead tracked handle and an inbound
connection waiting, one `_accept` removes exactly one dead handle — found
in the Active scan, or in the Pending scan only when Active has no dead
handle — and accepts exactly one new connection, appending it to the back
of both Active and Pending. -/
theorem accept_at_capacity_reclaim (e : Env) (s : ServerState) (newfd : Nat)
    (hcap : s.new_clients.length + s.clients.length = s.max_clients)
    (hdead : ∃ fd ∈ s.clients ++ s.new_clients, deadFd e fd = true)
    (hacc : e.acceptFd = some newfd) :
    ∃ d, deadFd e d = true ∧
      (d ∈ s.clients ∨ (d ∈ s.new_clients ∧ ∀ x ∈ s.clients, deadFd e x = false)) ∧
      List.Perm (d :: ((accept_ e s).clients ++ (accept_ e s).new_clients))
        ((s.clients ++ s.new_clients) ++ [newfd, newfd]) ∧
      (accept_ e s).clients.getLast? = some newfd ∧
      (accept_ e s).new_clients.getLast? = some newfd := by
  by_cases hcd : ∃ fd ∈ s.clients, deadFd e fd = true
  · have hex0 : ∃ fd ∈ s.clients.drop 0, deadFd e fd = true := by
      rw [List.drop_zero]
      exact hcd
    obtain ⟨j, hj, _, hjd, hscan⟩ :=
      scanActive_some_of_dead e s.clients.length s.clients 0 (by omega) hex0
    have hacc2 : accept_ e s
        = { s with clients := removeSwap s.clients j ++ [newfd],
                   new_clients := s.new_clients ++ [newfd] } := by
      unfold accept_
      rw [if_pos hcap]
      simp only [hscan]
      exact acceptNew_some e _ newfd hacc
    have hp := removeSwap_perm s.clients j hj
    refine ⟨s.clients[j], hjd, Or.inl (List.getElem_mem hj), ?_, ?_, ?_⟩
    · rw [hacc2]
      rw [List.perm_iff_count]
      intro x
      have hcnt := hp.count_eq x
      simp only [List.count_cons, List.count_append, List.count_nil] at hcnt ⊢
      omega
    · rw [hacc2]
      exact List.getLast?_concat _
    · rw [hacc2]
      exact List.getLast?_concat _
  · have hcl : ∀ x ∈ s.clients, deadFd e x = false := by
      intro x hx
      cases hv : deadFd e x
      · rfl
      · exact absurd ⟨x, hx, hv⟩ hcd
    have hscan : scanActive e s.clients 0 = none := by
      refine scanActive_none_of_live e s.clients.length s.clients 0 (by omega) ?_
      intro fd hfd
      rw [List.drop_zero] at hfd
      exact hcl fd hfd
    have hdn : ∃ fd ∈ s.new_clients, deadFd e fd = true := by
      rcases hdead with ⟨fd, hfd, hfdd⟩
      rcases List.mem_append.mp hfd with hfe | hfe
      · rw [hcl fd hfe] at hfdd
        cases hfdd
      · exact ⟨fd, hfe, hfdd⟩
    obtain ⟨new2, hpend⟩ := erasePend_some_of_dead e s.new_clients hdn
    obtain ⟨d, hd, hperm⟩ := erasePend_some_elim e s.new_clients new2 hpend
    have hacc2 : accept_ e s
        = { s with clients := s.clients ++ [newfd],
                   new_clients := new2 ++ [newfd] } := by
      unfold accept_
      rw [if_pos hcap]
      simp only [hscan, hpend]
      exact acceptNew_some e _ newfd hacc
    refine ⟨d, hd, Or.inr ⟨hperm.mem_iff.mp (List.mem_cons_self _ _), hcl⟩, ?_, ?_, ?_⟩
    · rw [hacc2]
      rw [List.perm_iff_count]
      intro x
      have hcnt := hperm.count_eq x
      simp only [List.count_cons, List.count_append, List.count_nil] at hcnt ⊢
      omega
    · rw [hacc2]
      exact List.getLast?_concat _
    · rw [hacc2]
      exact List.getLast?_concat _

theorem accept_at_capacity_reclaim_witness :
    ((⟨2, [7], [7], []⟩ : ServerState).new_clients.length
        + (⟨2, [7], [7], []⟩ : ServerState).clients.length
        = (⟨2, [7], [7], []⟩ : ServerState).max_clients) ∧
    (∃ fd ∈ (⟨2, [7], [7], []⟩ : ServerState).clients
        ++ (⟨2, [7], [7], []⟩ : ServerState).new_clients, deadFd eDeadAcc6 fd = true) ∧
    eDeadAcc6.acceptFd = some 6 ∧
    (∃ d, deadFd eDeadAcc6 d = true ∧
      (d ∈ (⟨2, [7], [7], []⟩ : ServerState).clients ∨
        (d ∈ (⟨2, [7], [7], []⟩ : ServerState).new_clients ∧
          ∀ x ∈ (⟨2, [7], [7], []⟩ : ServerState).clients, deadFd eDeadAcc6 x = false)) ∧
      List.Perm
        (d :: ((accept_ eDeadAcc6 ⟨2, [7], [7], []⟩).clients
          ++ (accept_ eDeadAcc6 ⟨2, [7], [7], []⟩).new_clients))
        (((⟨2, [7], [7], []⟩ : ServerState).clients
          ++ (⟨2, [7], [7], []⟩ : ServerState).new_clients) ++ [6, 6]) ∧
      (accept_ eDeadAcc6 ⟨2, [7], [7], []⟩).clients.getLast? = some 6 ∧
      (accept_ eDeadAcc6 ⟨2, [7], [7], []⟩).new_clients.getLast? = some 6) :=
  ⟨by decide, by decide, rfl,
    accept_at_capacity_reclaim eDeadAcc6 ⟨2, [7], [7], []⟩ 6 (by decide) (by decide) rfl⟩

theorem acceptNew_len (e : Env) (s : ServerState) :
    (acceptNew e s).clients.length ≤ s.clients.length + 1 ∧
    (acceptNew e s).new_clients.length ≤ s.new_clients.length + 1 := by
  rcases hacc : e.acceptFd with _ | fd
  · rw [acceptNew_none e s hacc]
    constructor <;> omega
  · rw [acceptNew_some e s fd hacc]
    constructor <;> simp

/-- One `_accept` grows each of the two collections by at most one
element: at most one connection is accepted per attempt. -/
theorem accept_len (e : Env) (s : ServerState) :
    (accept_ e s).clients.length ≤ s.clients.length + 1 ∧
    (accept_ e s).new_clients.length ≤ s.new_clients.length + 1 := by
  by_cases hgate : s.new_clients.length + s.clients.length = s.max_clients
  · rcases hscan : scanActive e s.clients 0 with _ | cl2
    · rcases hpend : erasePend e s.new_clients with _ | new2
      · have hacc2 : accept_ e s = s := by
          unfold accept_
          rw [if_pos hgate]
          simp only [hscan, hpend]
        rw [hacc2]
        constructor <;> omega
      · have hacc2 : accept_ e s = acceptNew e { s with new_clients := new2 } := by
          unfold accept_
          rw [if_pos hgate]
          simp only [hscan, hpend]
        obtain ⟨d, _, hperm⟩ := erasePend_some_elim e s.new_clients new2 hpend
        have hlen := hperm.length_eq
        simp only [List.length_cons] at hlen
        have hb := acceptNew_len e { s with new_clients := new2 }
        simp only at hb
        rw [hacc2]
        omega
    · have hacc2 : accept_ e s = acceptNew e { s with clients := cl2 } := by
        unfold accept_
        rw [if_pos hgate]
        simp only [hscan]
      obtain ⟨j, hj, _, _, hcl2⟩ :=
        scanActive_some_elim e s.clients.length s.clients 0 (by omega) cl2 hscan
      have hlen : cl2.length = s.clients.length - 1 := by
        rw [hcl2, removeSwap_length]
      have hb := acceptNew_len e { s with clients := cl2 }
      simp only at hb
      rw [hacc2]
      omega
  · have hacc2 : accept_ e s = acceptNew e s := by
      unfold accept_
      rw [if_neg hgate]
    rw [hacc2]
    exact acceptNew_len e s

/-- C7: `hasClient()` performs exactly one accept attempt — each of the two
collections grows by at most one handle per call, so at most one connection
is accepted — and returns true if and only if the Pending-Accept Queue is
non-empty after that attempt (including entries left unclaimed by earlier
calls); with an empty pool and no inbound connection it returns false and
changes no state. -/
theorem hasClient_single_attempt (e : Env) (s : ServerState) :
    ((hasClient e s).1 = true ↔ (hasClient e s).2.new_clients ≠ []) ∧
    (hasClient e s).2.clients.length ≤ s.clients.length + 1 ∧
    (hasClient e s).2.new_clients.length ≤ s.new_clients.length + 1 ∧
    (s.clients = [] → s.new_clients = [] → e.acceptFd = none →
      hasClient e s = (false, s)) := by
  refine ⟨?_, ?_, ?_, ?_⟩
  · cases hn : (accept_ e s).new_clients <;> simp [hasClient, hn]
  · simp only [hasClient]
    exact (accept_len e s).1
  · simp only [hasClient]
    exact (accept_len e s).2
  · intro h1 h2 h3
    have hacc2 : accept_ e s = s := by
      by_cases hgate : s.new_clients.length + s.clients.length = s.max_clients
      · have hscan : scanActive e s.clients 0 = none := by
          rw [h1]
          exact scanActive_done e [] 0 (by simp)
        have hpend : erasePend e s.new_clients = none := by
          rw [h2]
          rfl
        unfold accept_
        rw [if_pos hgate]
        simp only [hscan, hpend]
      · unfold accept_
        rw [if_neg hgate]
        exact acceptNew_none e s h3
    simp [hasClient, hacc2, h2]

theorem hasClient_single_attempt_witness :
    hasClient eNone (initState 1) = (false, initState 1) :=
  (hasClient_single_attempt eNone (initState 1)).2.2.2 rfl rfl rfl

/-- C4: a broadcast `write(buffer, size)` over an Active set in which every
handle is either connected (live) or dead-silent (neither connected nor
carrying pending input) terminates, removes exactly the dead-silent
handles from Active (closing each), keeps exactly the live handles, and
returns the sum of the byte counts accepted by the individual writes to the
live handles; the Pending queue and capacity are untouched. -/
theorem write_broadcast_spec (e : Env) (size : Nat) (s : ServerState)
    (h : ∀ fd ∈ s.clients, e.connected fd = true ∨ e.avail fd = false) :
    ∃ n s2, write e size s = some (n, s2) ∧
      List.Perm s2.clients (s.clients.filter e.connected) ∧
      n = ((s.clients.filter e.connected).map e.writeRet).sum ∧
      List.Perm s2.closed
        (s.closed ++ s.clients.filter (fun fd => !e.connected fd)) ∧
      s2.new_clients = s.new_clients ∧ s2.max_clients = s.max_clients := by
  obtain ⟨m, cl, cls, heq, hperm, hm, hcls⟩ :=
    writeLoop_spec e s.clients.length s.clients 0 0 [] (by omega)
      (by intro fd hfd; rw [List.drop_zero] at hfd; exact h fd hfd)
      (by intro fd hfd; simp at hfd)
  refine ⟨m, { s with clients := cl, closed := s.closed ++ cls }, ?_, ?_, ?_, ?_, rfl, rfl⟩
  · unfold write
    rw [heq]
  · simpa using hperm
  · simpa using hm
  · exact List.Perm.append_left s.closed (by simpa using hcls)

theorem write_broadcast_spec_witness :
    (∀ fd ∈ (⟨5, [1, 3, 2], [9], [4]⟩ : ServerState).clients,
        eTwoLive.connected fd = true ∨ eTwoLive.avail fd = false) ∧
    (∃ n s2, write eTwoLive 4 ⟨5, [1, 3, 2], [9], [4]⟩ = some (n, s2) ∧
      List.Perm s2.clients
        ((⟨5, [1, 3, 2], [9], [4]⟩ : ServerState).clients.filter eTwoLive.connected) ∧
      n = (((⟨5, [1, 3, 2], [9], [4]⟩ : ServerState).clients.filter
        eTwoLive.connected).map eTwoLive.writeRet).sum ∧
      List.Perm s2.closed
        ((⟨5, [1, 3, 2], [9], [4]⟩ : ServerState).closed
          ++ (⟨5, [1, 3, 2], [9], [4]⟩ : ServerState).clients.filter
            (fun fd => !eTwoLive.connected fd)) ∧
      s2.new_clients = (⟨5, [1, 3, 2], [9], [4]⟩ : ServerState).new_clients ∧
      s2.max_clients = (⟨5, [1, 3, 2], [9], [4]⟩ : ServerState).max_clients) :=
  ⟨by decide, write_broadcast_spec eTwoLive 4 ⟨5, [1, 3, 2], [9], [4]⟩ (by decide)⟩

end EthernetServerModel
